import Mathlib

/-
Verification of the blockscape checkers bot core (the most complete
revision of the bot source).  The development shallowly embeds, from the
source:

* the slot index codec (idx_to_xy),
* the move engine (consider_move / get_available_moves),
* the slot discovery search (autodial),
* the claim coordinator wait loops of bid,
* the registration retry loop of connect_and_register,
* the session loop position threading of main_loop,

and proves or refutes the frozen claims about them.  JavaScript numbers
are embedded as exact integers / rationals in the ranges exercised; the
one place where IEEE-754 double rounding matters (the 62-bit encoded
slot index) is modelled explicitly by round-to-nearest-even on integers.
-/

set_option maxHeartbeats 1000000

namespace Blockscape

/-! ## Slot index codec -/

/-- Decode of the linear slot index, from the source:
`let wrap = Math.pow(2, 31); return [Math.floor(idx / wrap).toString(), (idx % wrap).toString()]`.
For an integer-valued double `idx`, dividing by the power of two 2^31 is exact
and `Math.floor` / `%` then agree with natural floor division and remainder,
so the function is embedded on exact naturals.  The `.toString()` rendering of
the two components is dropped (the claim is about the coordinate values). -/
def idx_to_xy (idx : ℕ) : ℕ × ℕ :=
  (idx / 2 ^ 31, idx % 2 ^ 31)

/-- Exponent of the unit in the last place for a double holding the integer
`n`: the number of halvings of `n` needed to fall below `2^53`, that is
`max 0 (bitlength n - 53)`.  Fuel-based so that the kernel can evaluate it;
64 units of fuel cover every integer below `2^117`. -/
def ulpExp : ℕ → ℕ → ℕ
  | 0, _ => 0
  | fuel + 1, n => if n < 2 ^ 53 then 0 else ulpExp fuel (n / 2) + 1

/-- Round-to-nearest-even of a natural number to a 53-bit significand: the
value of an IEEE-754 double holding the exact integer `n` (for `n < 2^64`).
Below `2^53` every integer is exactly representable; above, the unit in the
last place is `2 ^ ulpExp` and ties go to the even multiple. -/
def roundDouble (n : ℕ) : ℕ :=
  if n < 2 ^ 53 then n
  else
    let ulp := 2 ^ ulpExp 64 n
    let q := n / ulp
    let r := n % ulp
    if r < ulp / 2 then q * ulp
    else if ulp / 2 < r then (q + 1) * ulp
    else if q % 2 = 0 then q * ulp else (q + 1) * ulp

/-- The encoded linear index `x * 2^31 + y` as the ledger contract states it,
as evaluated on JavaScript numbers: `x * 2^31` is exact for `x < 2^31`
(at most 31 significant bits), and the following addition of `y` rounds the
62-bit exact sum to double precision. -/
def js_encode (x y : ℕ) : ℕ :=
  roundDouble (x * 2 ^ 31 + y)

/-- The claim C3 fails at the top of the 31-bit range: encoding
`(2^31 - 1, 1)` gives the integer `2^62 - 2^31 + 1`, which rounds (ulp 512,
remainder 1) down to `2^62 - 2^31`, and decoding returns `(2^31 - 1, 0)`,
not `(2^31 - 1, 1)`. -/
theorem idx_to_xy_not_inverse_at_full_range :
    idx_to_xy (js_encode (2 ^ 31 - 1) 1) = (2 ^ 31 - 1, 0) ∧
      idx_to_xy (js_encode (2 ^ 31 - 1) 1) ≠ (2 ^ 31 - 1, 1) := by
  constructor <;> decide

/-- Amended claim C3: the decode is an exact inverse of the encode whenever the
encoded index is exactly representable as a double, that is whenever
`x * 2^31 + y < 2^53`; over the full 31-bit range of both coordinates the
double addition rounds the index and the round trip can change `y`. -/
theorem idx_to_xy_encode_roundtrip (x y : ℕ) (hy : y < 2 ^ 31)
    (hrep : x * 2 ^ 31 + y < 2 ^ 53) :
    idx_to_xy (js_encode x y) = (x, y) := by
  have henc : js_encode x y = x * 2 ^ 31 + y := by
    unfold js_encode roundDouble
    rw [if_pos hrep]
  unfold idx_to_xy
  rw [henc, Prod.mk.injEq]
  have h31 : (2 : ℕ) ^ 31 = 2147483648 := by norm_num
  rw [h31] at hy ⊢
  constructor
  · omega
  · omega

/-- Witness for the amended C3 theorem at `(x, y) = (3, 5)`. -/
theorem idx_to_xy_encode_roundtrip_witness :
    idx_to_xy (js_encode 3 5) = (3, 5) :=
  idx_to_xy_encode_roundtrip 3 5 (by norm_num) (by norm_num)

/-! ## Move engine -/

/-- Failure of a move-engine call: the explicit throw on an empty origin
(source line 86), the implicit JavaScript TypeError raised by calling
toLowerCase on an undefined cell of a ragged board (source line 102), or
exhaustion of the recursion fuel of the embedding (never reached on 8x8
boards, where no second-level capture is ever possible). -/
inductive MoveErr where
  | emptyOrigin (coord : String)
  | typeError
  | outOfFuel
  deriving DecidableEq, Repr

/-- A move as pushed onto the moves array: `[origin, 'move', dir]` or
`[origin, 'jump', dir...]`.  The `hit` field of a jump records the hit_path
accumulated for that chain at the moment it was emitted; the JavaScript
array carries only origin and directions, and `hit` is kept as a ghost
annotation because the claims speak about the captured-cell list of each
chain. -/
inductive MoveEntry where
  | move (origin : String) (dir : String)
  | jump (origin : String) (dirs : List String) (hit : List String)
  deriving DecidableEq, Repr

/-- A parsed board: one list of cell characters per row (the JS rows are
strings). -/
abbrev Board := List (List Char)

/-- JS row access board[y]; none models undefined. -/
def rowAt (board : Board) (y : ℤ) : Option (List Char) :=
  if y < 0 then none else board.get? y.toNat

/-- JS character access row[x] on a row string; none models undefined. -/
def cellIn (row : List Char) (x : ℤ) : Option Char :=
  if x < 0 then none else row.get? x.toNat

/-- Cell board[y][x], when the row exists. -/
def cellAt (board : Board) (x y : ℤ) : Option Char :=
  (rowAt board y).bind (fun row => cellIn row x)

/-- From the source (lines 59-70): map a coordinate delta to a compass
direction token. -/
def delta_to_dir (dx dy : ℤ) : String :=
  if dx > 0 ∧ dy > 0 then "se"
  else if dx < 0 ∧ dy > 0 then "sw"
  else if dx < 0 ∧ dy < 0 then "nw"
  else "ne"

/-- From the source (lines 72-75):
`let cols = 'abcdefgh'; return cols[x] + (y + 1).toString()`.  For `x`
outside `[0, 8)` the JS indexing yields undefined, which the string
concatenation renders as "undefined". -/
def xy_to_checkers_coord (x y : ℤ) : String :=
  (if 0 ≤ x ∧ x < 8 then
    String.singleton (['a', 'b', 'c', 'd', 'e', 'f', 'g', 'h'].getD x.toNat ' ')
  else "undefined") ++ toString (y + 1)

/-- Direct embedding of consider_move (source lines 83-142).  The mutated
moves array becomes the returned list (the JS return value is its length),
exceptions become `Except.error`, and the fuel argument bounds the recursion
depth of the embedding.  The two faithful oddities of the source are kept:
the recursive calls of lines 128-131 pass the absolute values `nx ± 2`,
`ny ± 2` in the delta positions, and line 113 abandons a jump whenever the
jumped cell is NOT already on the hit path. -/
def consider_move (board : Board) :
    ℕ → ℤ → ℤ → ℤ → ℤ → Option (List String) → Option (List String) →
    Option (ℤ × ℤ) → Except MoveErr (List MoveEntry)
  | 0, _, _, _, _, _, _, _ => .error .outOfFuel
  | fuel + 1, x, y, dx, dy, jump_path, hit_path, orig? =>
    match rowAt board y with
    | none => .error .typeError
    | some row =>
      let cell? := cellIn row x
      if cell? = some '.' ∧ jump_path = none then
        .error (.emptyOrigin (xy_to_checkers_coord x y))
      else if cell? = some 'b' ∧ dy < 0 then .ok []
      else if cell? = some 'r' ∧ dy > 0 then .ok []
      else if x + dx < 0 ∨ (row.length : ℤ) ≤ x + dx ∨ y + dy < 0 ∨
          (board.length : ℤ) ≤ y + dy then .ok []
      else
        let nx := x + 2 * dx
        let ny := y + 2 * dy
        match cell?, cellAt board (x + dx) (y + dy) with
        | some cell, some mid =>
          let is_empty := mid = '.'
          let is_mine := cell.toLower = mid.toLower
          if jump_path = none ∧ is_empty then
            .ok [.move (xy_to_checkers_coord x y) (delta_to_dir dx dy)]
          else if ¬is_empty ∧ ¬is_mine ∧ 0 ≤ nx ∧ nx < (row.length : ℤ) ∧
              0 ≤ ny ∧ ny < (board.length : ℤ) ∧
              cellAt board nx ny = some '.' then
            let cm := xy_to_checkers_coord (x + dx) (y + dy)
            let blocked : Bool := match hit_path with
              | some hl => !(hl.contains cm)
              | none => false
            if blocked then .ok []
            else
              let dir := delta_to_dir dx dy
              let jp := jump_path.getD [] ++ [dir]
              let hp := hit_path.getD [] ++ [cm]
              let org := orig?.getD (x, y)
              do
                let l1 ← consider_move board fuel nx ny (nx + 2) (ny + 2)
                  (some jp) (some hp) (some org)
                let l2 ← consider_move board fuel nx ny (nx - 2) (ny + 2)
                  (some jp) (some hp) (some org)
                let l3 ← consider_move board fuel nx ny (nx + 2) (ny - 2)
                  (some jp) (some hp) (some org)
                let l4 ← consider_move board fuel nx ny (nx - 2) (ny - 2)
                  (some jp) (some hp) (some org)
                let added := l1 ++ l2 ++ l3 ++ l4
                if added.isEmpty then
                  pure [.jump (xy_to_checkers_coord org.1 org.2) jp hp]
                else pure added
          else .ok []
        | _, _ => .error .typeError

/-- The side condition of get_available_moves (source lines 156-159): the
cell holds a piece of the moving side. -/
def sideCond (is_red : Bool) (cell? : Option Char) : Bool :=
  ((cell? == some 'R' || cell? == some 'r') && is_red) ||
  ((cell? == some 'B' || cell? == some 'b') && !is_red)

/-- Inner x loop of get_available_moves over one row, `togo` cells starting
at `x`; the four consider_move calls mirror source lines 160-163. -/
def gam_cells (board : Board) (is_red : Bool) (fuel y : ℕ) :
    ℕ → ℕ → Except MoveErr (List MoveEntry)
  | 0, _ => .ok []
  | togo + 1, x => do
    let here ←
      if sideCond is_red (cellAt board x y) then do
        let m1 ← consider_move board fuel x y 1 (-1) none none none
        let m2 ← consider_move board fuel x y 1 1 none none none
        let m3 ← consider_move board fuel x y (-1) (-1) none none none
        let m4 ← consider_move board fuel x y (-1) 1 none none none
        pure (m1 ++ m2 ++ m3 ++ m4)
      else pure []
    let rest ← gam_cells board is_red fuel y togo (x + 1)
    pure (here ++ rest)

/-- Outer y loop of get_available_moves (source lines 153-166); the width of
each row is read from that row, as in the source. -/
def gam_rows (board : Board) (is_red : Bool) (fuel : ℕ) :
    ℕ → ℕ → Except MoveErr (List MoveEntry)
  | 0, _ => .ok []
  | togo + 1, y => do
    let width := ((board.get? y).getD []).length
    let here ← gam_cells board is_red fuel y width 0
    let rest ← gam_rows board is_red fuel togo (y + 1)
    pure (here ++ rest)

/-- Embedding of get_available_moves (source lines 146-169): explore every
cell of the board holding a piece of the moving side in the four diagonal
directions and concatenate the results in push order. -/
def get_available_moves (fuel : ℕ) (board : Board) (is_red : Bool) :
    Except MoveErr (List MoveEntry) :=
  gam_rows board is_red fuel board.length 0

/-- A concrete 8x8 board with a single black man on d4 (cell (3,3)). -/
def singleBlackBoard : Board :=
  [['.', '.', '.', '.', '.', '.', '.', '.'],
   ['.', '.', '.', '.', '.', '.', '.', '.'],
   ['.', '.', '.', '.', '.', '.', '.', '.'],
   ['.', '.', '.', 'b', '.', '.', '.', '.'],
   ['.', '.', '.', '.', '.', '.', '.', '.'],
   ['.', '.', '.', '.', '.', '.', '.', '.'],
   ['.', '.', '.', '.', '.', '.', '.', '.'],
   ['.', '.', '.', '.', '.', '.', '.', '.']]

example :
    get_available_moves 2 singleBlackBoard false =
      .ok [.move "d4" "se", .move "d4" "sw"] := by
  rfl

/-- Origin coordinate string of an emitted move. -/
def MoveEntry.originOf : MoveEntry → String
  | .move o _ => o
  | .jump o _ _ => o

/-- First direction token of an emitted move (for a jump, the head of its
direction chain). -/
def MoveEntry.firstDir : MoveEntry → Option String
  | .move _ d => some d
  | .jump _ ds _ => ds.head?

/-- The board shape of the data model: 8 rows of 8 cells. -/
def Board8 (board : Board) : Prop :=
  board.length = 8 ∧ ∀ row ∈ board, row.length = 8

theorem rowAt_of_board8 (board : Board) (h8 : Board8 board) {y : ℤ}
    (hy0 : 0 ≤ y) (hy8 : y < 8) :
    ∃ row, rowAt board y = some row ∧ row.length = 8 := by
  unfold rowAt
  rw [if_neg (by omega)]
  have hlt : y.toNat < board.length := by rw [h8.1]; omega
  exact ⟨board.get ⟨y.toNat, hlt⟩, List.get?_eq_get hlt,
    h8.2 _ (board.get_mem _ _)⟩

theorem cellIn_of_len8 (row : List Char) (h : row.length = 8) {x : ℤ}
    (hx0 : 0 ≤ x) (hx8 : x < 8) :
    ∃ c, cellIn row x = some c := by
  unfold cellIn
  rw [if_neg (by omega)]
  have hlt : x.toNat < row.length := by omega
  exact ⟨row.get ⟨x.toNat, hlt⟩, List.get?_eq_get hlt⟩

theorem cellAt_of_board8 (board : Board) (h8 : Board8 board) {x y : ℤ}
    (hx0 : 0 ≤ x) (hx8 : x < 8) (hy0 : 0 ≤ y) (hy8 : y < 8) :
    ∃ c, cellAt board x y = some c := by
  obtain ⟨row, hrow, hlen⟩ := rowAt_of_board8 board h8 hy0 hy8
  obtain ⟨c, hc⟩ := cellIn_of_len8 row hlen hx0 hx8
  exact ⟨c, by unfold cellAt; rw [hrow]; exact hc⟩

theorem coord_inj_fin :
    ∀ a b c d : Fin 8,
      xy_to_checkers_coord ((a : ℕ) : ℤ) ((b : ℕ) : ℤ) =
          xy_to_checkers_coord ((c : ℕ) : ℤ) ((d : ℕ) : ℤ) →
        (a : ℕ) = (c : ℕ) ∧ (b : ℕ) = (d : ℕ) := by
  decide

theorem xy_to_checkers_coord_inj {x y x' y' : ℤ}
    (hx0 : 0 ≤ x) (hx8 : x < 8) (hy0 : 0 ≤ y) (hy8 : y < 8)
    (hx0' : 0 ≤ x') (hx8' : x' < 8) (hy0' : 0 ≤ y') (hy8' : y' < 8)
    (h : xy_to_checkers_coord x y = xy_to_checkers_coord x' y') :
    x = x' ∧ y = y' := by
  have hx : x = ((x.toNat : ℕ) : ℤ) := by omega
  have hy : y = ((y.toNat : ℕ) : ℤ) := by omega
  have hx' : x' = ((x'.toNat : ℕ) : ℤ) := by omega
  have hy' : y' = ((y'.toNat : ℕ) : ℤ) := by omega
  obtain ⟨h1, h2⟩ := coord_inj_fin ⟨x.toNat, by omega⟩ ⟨y.toNat, by omega⟩
    ⟨x'.toNat, by omega⟩ ⟨y'.toNat, by omega⟩
    (by rw [hx, hy, hx', hy'] at h; exact h)
  have e1 : x.toNat = x'.toNat := h1
  have e2 : y.toNat = y'.toNat := h2
  omega

/-- Key blocking lemma: a recursive consider_move call made from the landing
cell of a first capture can never add a move on an 8x8 board.  The position
`(nx, ny)` is empty, the hit path holds the single cell `(mx, my)`, and the
cell obtained by reflecting the position across the hit cell (the origin of
the first capture) is occupied; the inverted membership test of source line
113 then only lets a jump proceed over the hit cell itself, whose landing
square is exactly that occupied reflection. -/
theorem consider_move_blocked
    (board : Board) (h8 : Board8 board) (f : ℕ)
    (nx ny dx dy : ℤ) (jp : List String) (org : ℤ × ℤ) (mx my : ℤ)
    (hmx0 : 0 ≤ mx) (hmx8 : mx < 8) (hmy0 : 0 ≤ my) (hmy8 : my < 8)
    (hny0 : 0 ≤ ny) (hny8 : ny < 8)
    (hland : cellAt board nx ny = some '.')
    (c : Char) (hc : cellAt board (2 * mx - nx) (2 * my - ny) = some c)
    (hcdot : c ≠ '.') :
    consider_move board (f + 1) nx ny dx dy (some jp)
      (some [xy_to_checkers_coord mx my]) (some org) = .ok [] := by
  obtain ⟨row, hrow, hlen⟩ := rowAt_of_board8 board h8 hny0 hny8
  have hcell : cellIn row nx = some '.' := by
    have h := hland
    unfold cellAt at h
    rw [hrow] at h
    exact h
  have hrowlen : (row.length : ℤ) = 8 := by rw [hlen]; norm_num
  have hboardlen : ((List.length board : ℕ) : ℤ) = 8 := by rw [h8.1]; norm_num
  simp only [consider_move]
  rw [hrow]
  simp only [hcell]
  rw [if_neg (by simp)]
  rw [if_neg (by intro h; exact absurd h.1 (by decide))]
  rw [if_neg (by intro h; exact absurd h.1 (by decide))]
  by_cases hb : nx + dx < 0 ∨ (row.length : ℤ) ≤ nx + dx ∨ ny + dy < 0 ∨
      ((List.length board : ℕ) : ℤ) ≤ ny + dy
  · rw [if_pos hb]
  · rw [if_neg hb]
    push_neg at hb
    obtain ⟨hb1, hb2, hb3, hb4⟩ := hb
    obtain ⟨mid, hmid⟩ := @cellAt_of_board8 board h8 (nx + dx) (ny + dy)
      (by omega) (by rw [hrowlen] at hb2; omega) (by omega)
      (by rw [hboardlen] at hb4; omega)
    simp only [hmid]
    have hs : ¬(some jp = none ∧ mid = '.') := fun hcontra =>
      Option.some_ne_none jp hcontra.1
    rw [if_neg hs]
    by_cases hj : ¬mid = '.' ∧ ¬Char.toLower '.' = mid.toLower ∧
        0 ≤ nx + 2 * dx ∧ nx + 2 * dx < (row.length : ℤ) ∧
        0 ≤ ny + 2 * dy ∧ ny + 2 * dy < ((List.length board : ℕ) : ℤ) ∧
        cellAt board (nx + 2 * dx) (ny + 2 * dy) = some '.'
    · rw [if_pos hj]
      by_cases hblk : xy_to_checkers_coord (nx + dx) (ny + dy) =
          xy_to_checkers_coord mx my
      · exfalso
        obtain ⟨hex, hey⟩ := @xy_to_checkers_coord_inj (nx + dx) (ny + dy) mx my
          (by omega) (by rw [hrowlen] at hb2; omega) (by omega)
          (by rw [hboardlen] at hb4; omega) hmx0 hmx8 hmy0 hmy8 hblk
        have hx2 : nx + 2 * dx = 2 * mx - nx := by omega
        have hy2 : ny + 2 * dy = 2 * my - ny := by omega
        have hl2 := hj.2.2.2.2.2.2
        rw [hx2, hy2, hc] at hl2
        exact hcdot (by injection hl2)
      · have hbt : (!(([xy_to_checkers_coord mx my]).contains
            (xy_to_checkers_coord (nx + dx) (ny + dy)))) = true := by
          simp only [List.contains_cons, List.contains_nil, Bool.or_false,
            Bool.not_eq_true']
          rw [beq_eq_false_iff_ne]
          exact fun hcontra => hblk hcontra
        rw [if_pos hbt]
    · rw [if_neg hj]

theorem except_bind_error {ε α β : Type} (e : ε) (f : α → Except ε β) :
    (Except.error e >>= f) = Except.error e := rfl

theorem except_bind_ok {ε α β : Type} (a : α) (f : α → Except ε β) :
    (Except.ok a >>= f) = f a := rfl

theorem consider_move_top
    (board : Board) (h8 : Board8 board) (F : ℕ) (x y dx dy : ℤ)
    (hx0 : 0 ≤ x) (hx8 : x < 8) (hy0 : 0 ≤ y) (hy8 : y < 8)
    (c : Char) (hc : cellAt board x y = some c) (hcdot : c ≠ '.')
    (l : List MoveEntry)
    (h : consider_move board F x y dx dy none none none = .ok l) :
    ∀ m ∈ l, m.originOf = xy_to_checkers_coord x y ∧
      m.firstDir = some (delta_to_dir dx dy) ∧
      ∀ o ds ht, m = .jump o ds ht →
        ds = [delta_to_dir dx dy] ∧
          ht = [xy_to_checkers_coord (x + dx) (y + dy)] := by
  match F with
  | 0 => exact Except.noConfusion h
  | f + 1 =>
  obtain ⟨row, hrow, hlen⟩ := rowAt_of_board8 board h8 hy0 hy8
  have hcell : cellIn row x = some c := by
    have h2 := hc
    unfold cellAt at h2
    rw [hrow] at h2
    exact h2
  have hrowlen : (row.length : ℤ) = 8 := by rw [hlen]; norm_num
  have hboardlen : ((List.length board : ℕ) : ℤ) = 8 := by rw [h8.1]; norm_num
  simp only [consider_move] at h
  rw [hrow] at h
  simp only [hcell] at h
  rw [if_neg (fun hco => hcdot (by injection hco.1))] at h
  by_cases hgb : some c = some 'b' ∧ dy < 0
  · rw [if_pos hgb] at h
    injection h with h
    subst h
    exact fun m hm => absurd hm (by simp)
  · rw [if_neg hgb] at h
    by_cases hgr : some c = some 'r' ∧ dy > 0
    · rw [if_pos hgr] at h
      injection h with h
      subst h
      exact fun m hm => absurd hm (by simp)
    · rw [if_neg hgr] at h
      by_cases hb : x + dx < 0 ∨ (row.length : ℤ) ≤ x + dx ∨ y + dy < 0 ∨
          ((List.length board : ℕ) : ℤ) ≤ y + dy
      · rw [if_pos hb] at h
        injection h with h
        subst h
        exact fun m hm => absurd hm (by simp)
      · rw [if_neg hb] at h
        push_neg at hb
        obtain ⟨hb1, hb2, hb3, hb4⟩ := hb
        obtain ⟨mid, hmid⟩ := @cellAt_of_board8 board h8 (x + dx) (y + dy)
          (by omega) (by rw [hrowlen] at hb2; omega) (by omega)
          (by rw [hboardlen] at hb4; omega)
        simp only [hmid] at h
        by_cases hmidd : mid = '.'
        · rw [if_pos ⟨trivial, hmidd⟩] at h
          injection h with h
          subst h
          intro m hm
          rw [List.mem_singleton] at hm
          subst hm
          refine ⟨rfl, rfl, ?_⟩
          intro o ds ht heq
          simp at heq
        · rw [if_neg (fun hco => hmidd hco.2)] at h
          by_cases hj : ¬mid = '.' ∧ ¬c.toLower = mid.toLower ∧
              0 ≤ x + 2 * dx ∧ x + 2 * dx < (row.length : ℤ) ∧
              0 ≤ y + 2 * dy ∧ y + 2 * dy < ((List.length board : ℕ) : ℤ) ∧
              cellAt board (x + 2 * dx) (y + 2 * dy) = some '.'
          · rw [if_pos hj] at h
            rw [if_neg (by simp)] at h
            simp only [Option.getD_none, List.nil_append] at h
            match f with
            | 0 =>
              simp only [consider_move, except_bind_error] at h
              exact Except.noConfusion h
            | f' + 1 =>
              have hcref : ∀ ddx ddy : ℤ,
                  consider_move board (f' + 1) (x + 2 * dx) (y + 2 * dy) ddx ddy
                    (some [delta_to_dir dx dy])
                    (some [xy_to_checkers_coord (x + dx) (y + dy)])
                    (some (x, y)) = .ok [] := by
                intro ddx ddy
                have hc' : cellAt board (2 * (x + dx) - (x + 2 * dx))
                    (2 * (y + dy) - (y + 2 * dy)) = some c := by
                  have ex : 2 * (x + dx) - (x + 2 * dx) = x := by ring
                  have ey : 2 * (y + dy) - (y + 2 * dy) = y := by ring
                  rw [ex, ey]
                  exact hc
                exact consider_move_blocked board h8 f' (x + 2 * dx) (y + 2 * dy)
                  ddx ddy [delta_to_dir dx dy] (x, y) (x + dx) (y + dy)
                  (by omega) (by rw [hrowlen] at hb2; omega) (by omega)
                  (by rw [hboardlen] at hb4; omega)
                  hj.2.2.2.2.1 (by rw [hboardlen] at hj; exact hj.2.2.2.2.2.1)
                  hj.2.2.2.2.2.2 c hc' hcdot
              rw [hcref (x + 2 * dx + 2) (y + 2 * dy + 2),
                hcref (x + 2 * dx - 2) (y + 2 * dy + 2),
                hcref (x + 2 * dx + 2) (y + 2 * dy - 2),
                hcref (x + 2 * dx - 2) (y + 2 * dy - 2)] at h
              simp only [except_bind_ok, List.nil_append, List.isEmpty_nil,
                if_true] at h
              have h2 : (Except.ok
                  [MoveEntry.jump (xy_to_checkers_coord x y)
                    [delta_to_dir dx dy]
                    [xy_to_checkers_coord (x + dx) (y + dy)]] :
                  Except MoveErr (List MoveEntry)) = Except.ok l := h
              injection h2 with h2
              subst h2
              intro m hm
              rw [List.mem_singleton] at hm
              subst hm
              refine ⟨rfl, rfl, ?_⟩
              intro o ds ht heq
              injection heq with e1 e2 e3
              exact ⟨e2.symm, e3.symm⟩
          · rw [if_neg hj] at h
            injection h with h
            subst h
            exact fun m hm => absurd hm (by simp)


theorem consider_move_guard_b (board : Board) (f : ℕ) (x y dx dy : ℤ)
    (hc : cellAt board x y = some 'b') (hdy : dy < 0) :
    consider_move board (f + 1) x y dx dy none none none = .ok [] := by
  unfold cellAt at hc
  obtain ⟨row, hrow, hcell⟩ := Option.bind_eq_some.mp hc
  simp only [consider_move]
  rw [hrow]
  simp only [hcell]
  rw [if_neg (fun hco => absurd hco.1 (by decide))]
  rw [if_pos ⟨trivial, hdy⟩]

theorem consider_move_guard_r (board : Board) (f : ℕ) (x y dx dy : ℤ)
    (hc : cellAt board x y = some 'r') (hdy : dy > 0) :
    consider_move board (f + 1) x y dx dy none none none = .ok [] := by
  unfold cellAt at hc
  obtain ⟨row, hrow, hcell⟩ := Option.bind_eq_some.mp hc
  simp only [consider_move]
  rw [hrow]
  simp only [hcell]
  rw [if_neg (fun hco => absurd hco.1 (by decide))]
  rw [if_neg (fun hco => absurd hco.1 (by decide))]
  rw [if_pos ⟨trivial, hdy⟩]

theorem except_bind_eq_ok {ε α β : Type} {e : Except ε α}
    {f : α → Except ε β} {b : β} (h : (e >>= f) = .ok b) :
    ∃ a, e = .ok a ∧ f a = .ok b := by
  cases e with
  | error err => exact Except.noConfusion h
  | ok a => exact ⟨a, rfl, h⟩

theorem except_pure_inj {ε α : Type} {a b : α}
    (h : (pure a : Except ε α) = Except.ok b) : a = b :=
  Except.ok.inj h

theorem sideCond_cases (r : Bool) (o : Option Char)
    (h : sideCond r o = true) : ∃ c, o = some c ∧ c ≠ '.' := by
  cases o with
  | none => simp [sideCond] at h
  | some c =>
    refine ⟨c, rfl, ?_⟩
    simp only [sideCond, Bool.or_eq_true, Bool.and_eq_true, beq_iff_eq,
      Option.some.injEq, Bool.not_eq_true'] at h
    rcases h with ⟨hc | hc, _⟩ | ⟨hc | hc, _⟩ <;> subst hc <;> decide

/-- The per-move soundness property extracted from the generation of one
cell: the move originates at an on-board cell holding some piece, its hit
path (for a capture chain) has no duplicates, and a man piece at the origin
restricts the first direction of the move. -/
def MoveOK (board : Board) (m : MoveEntry) : Prop :=
  ∃ x y : ℕ, x < 8 ∧ y < 8 ∧ ∃ c : Char,
    cellAt board x y = some c ∧
    m.originOf = xy_to_checkers_coord x y ∧
    (∀ o ds ht, m = .jump o ds ht → ht.Nodup) ∧
    (c = 'b' → ∀ d, m.firstDir = some d → d = "se" ∨ d = "sw") ∧
    (c = 'r' → ∀ d, m.firstDir = some d → d = "ne" ∨ d = "nw")

theorem cell_moves_ok
    (board : Board) (h8 : Board8 board) (fuel : ℕ) (x y : ℕ)
    (hx : x < 8) (hy : y < 8) (c : Char)
    (hc : cellAt board (x : ℤ) (y : ℤ) = some c) (hcdot : c ≠ '.')
    (l1 l2 l3 l4 : List MoveEntry)
    (h1 : consider_move board fuel x y 1 (-1) none none none = .ok l1)
    (h2 : consider_move board fuel x y 1 1 none none none = .ok l2)
    (h3 : consider_move board fuel x y (-1) (-1) none none none = .ok l3)
    (h4 : consider_move board fuel x y (-1) 1 none none none = .ok l4) :
    ∀ m ∈ l1 ++ l2 ++ l3 ++ l4, MoveOK board m := by
  have hx0 : (0 : ℤ) ≤ (x : ℤ) := by omega
  have hx8 : ((x : ℕ) : ℤ) < 8 := by omega
  have hy0 : (0 : ℤ) ≤ (y : ℤ) := by omega
  have hy8 : ((y : ℕ) : ℤ) < 8 := by omega
  have t1 := consider_move_top board h8 fuel x y 1 (-1) hx0 hx8 hy0 hy8
    c hc hcdot l1 h1
  have t2 := consider_move_top board h8 fuel x y 1 1 hx0 hx8 hy0 hy8
    c hc hcdot l2 h2
  have t3 := consider_move_top board h8 fuel x y (-1) (-1) hx0 hx8 hy0 hy8
    c hc hcdot l3 h3
  have t4 := consider_move_top board h8 fuel x y (-1) 1 hx0 hx8 hy0 hy8
    c hc hcdot l4 h4
  have hguard_b : ∀ ddx ddy : ℤ, ∀ ll : List MoveEntry, c = 'b' → ddy < 0 →
      consider_move board fuel x y ddx ddy none none none = .ok ll →
      ll = [] := by
    intro ddx ddy ll hcb hddy hh
    subst hcb
    match fuel with
    | 0 => exact Except.noConfusion hh
    | f + 1 =>
      rw [consider_move_guard_b board f x y ddx ddy hc hddy] at hh
      exact (Except.ok.inj hh).symm
  have hguard_r : ∀ ddx ddy : ℤ, ∀ ll : List MoveEntry, c = 'r' → ddy > 0 →
      consider_move board fuel x y ddx ddy none none none = .ok ll →
      ll = [] := by
    intro ddx ddy ll hcr hddy hh
    subst hcr
    match fuel with
    | 0 => exact Except.noConfusion hh
    | f + 1 =>
      rw [consider_move_guard_r board f x y ddx ddy hc hddy] at hh
      exact (Except.ok.inj hh).symm
  have nodup_of : ∀ (m : MoveEntry) (dd : String) (cm : String),
      m.firstDir = some dd →
      (∀ o ds ht, m = .jump o ds ht → ds = [dd] ∧ ht = [cm]) →
      (∀ o ds ht, m = .jump o ds ht → ht.Nodup) := by
    intro m dd cm _ hj o ds ht heq
    rw [(hj o ds ht heq).2]
    exact List.nodup_singleton _
  intro m hm
  rw [List.append_assoc, List.append_assoc] at hm
  rw [List.mem_append] at hm
  rcases hm with hm1 | hm
  · obtain ⟨ho, hd, hj⟩ := t1 m hm1
    refine ⟨x, y, hx, hy, c, hc, ho, nodup_of m _ _ hd hj, ?_, ?_⟩
    · intro hcb d _
      have : l1 = [] := hguard_b 1 (-1) l1 hcb (by norm_num) h1
      rw [this] at hm1
      exact absurd hm1 (List.not_mem_nil m)
    · intro _ d hd2
      rw [hd] at hd2
      have : d = delta_to_dir 1 (-1) := (Option.some.inj hd2).symm
      left
      rw [this]
      rfl
  rw [List.mem_append] at hm
  rcases hm with hm2 | hm
  · obtain ⟨ho, hd, hj⟩ := t2 m hm2
    refine ⟨x, y, hx, hy, c, hc, ho, nodup_of m _ _ hd hj, ?_, ?_⟩
    · intro _ d hd2
      rw [hd] at hd2
      have : d = delta_to_dir 1 1 := (Option.some.inj hd2).symm
      left
      rw [this]
      rfl
    · intro hcr d _
      have : l2 = [] := hguard_r 1 1 l2 hcr (by norm_num) h2
      rw [this] at hm2
      exact absurd hm2 (List.not_mem_nil m)
  rw [List.mem_append] at hm
  rcases hm with hm3 | hm4
  · obtain ⟨ho, hd, hj⟩ := t3 m hm3
    refine ⟨x, y, hx, hy, c, hc, ho, nodup_of m _ _ hd hj, ?_, ?_⟩
    · intro hcb d _
      have : l3 = [] := hguard_b (-1) (-1) l3 hcb (by norm_num) h3
      rw [this] at hm3
      exact absurd hm3 (List.not_mem_nil m)
    · intro _ d hd2
      rw [hd] at hd2
      have : d = delta_to_dir (-1) (-1) := (Option.some.inj hd2).symm
      right
      rw [this]
      rfl
  · obtain ⟨ho, hd, hj⟩ := t4 m hm4
    refine ⟨x, y, hx, hy, c, hc, ho, nodup_of m _ _ hd hj, ?_, ?_⟩
    · intro _ d hd2
      rw [hd] at hd2
      have : d = delta_to_dir (-1) 1 := (Option.some.inj hd2).symm
      right
      rw [this]
      rfl
    · intro hcr d _
      have : l4 = [] := hguard_r (-1) 1 l4 hcr (by norm_num) h4
      rw [this] at hm4
      exact absurd hm4 (List.not_mem_nil m)


theorem gam_cells_moves_ok
    (board : Board) (h8 : Board8 board) (is_red : Bool) (fuel : ℕ)
    (y : ℕ) (hy : y < 8) :
    ∀ togo x0, x0 + togo ≤ 8 →
      ∀ l, gam_cells board is_red fuel y togo x0 = .ok l →
        ∀ m ∈ l, MoveOK board m := by
  intro togo
  induction togo with
  | zero =>
    intro x0 _ l h m hm
    have : ([] : List MoveEntry) = l := Except.ok.inj h
    rw [← this] at hm
    exact absurd hm (List.not_mem_nil m)
  | succ t ih =>
    intro x0 hle l h m hm
    simp only [gam_cells] at h
    by_cases hcond : sideCond is_red (cellAt board x0 y) = true
    · rw [if_pos hcond] at h
      obtain ⟨c, hc, hcdot⟩ := sideCond_cases is_red _ hcond
      obtain ⟨l1, h1, h⟩ := except_bind_eq_ok h
      obtain ⟨l2, h2, h⟩ := except_bind_eq_ok h
      obtain ⟨l3, h3, h⟩ := except_bind_eq_ok h
      obtain ⟨l4, h4, h⟩ := except_bind_eq_ok h
      obtain ⟨here, hhere, h⟩ := except_bind_eq_ok h
      obtain ⟨rest, hrest, h⟩ := except_bind_eq_ok h
      have hhere2 : l1 ++ l2 ++ l3 ++ l4 = here := except_pure_inj hhere
      have hl : here ++ rest = l := except_pure_inj h
      rw [← hl] at hm
      rw [List.mem_append] at hm
      rcases hm with hmh | hmr
      · rw [← hhere2] at hmh
        exact cell_moves_ok board h8 fuel x0 y (by omega) hy c hc hcdot
          l1 l2 l3 l4 h1 h2 h3 h4 m hmh
      · exact ih (x0 + 1) (by omega) rest hrest m hmr
    · rw [if_neg hcond] at h
      obtain ⟨here, hhere, h⟩ := except_bind_eq_ok h
      obtain ⟨rest, hrest, h⟩ := except_bind_eq_ok h
      have hhere2 : ([] : List MoveEntry) = here := except_pure_inj hhere
      have hl : here ++ rest = l := except_pure_inj h
      rw [← hl, ← hhere2, List.nil_append] at hm
      exact ih (x0 + 1) (by omega) rest hrest m hm

theorem gam_rows_moves_ok
    (board : Board) (h8 : Board8 board) (is_red : Bool) (fuel : ℕ) :
    ∀ t y0, y0 + t ≤ 8 →
      ∀ l, gam_rows board is_red fuel t y0 = .ok l →
        ∀ m ∈ l, MoveOK board m := by
  intro t
  induction t with
  | zero =>
    intro y0 _ l h m hm
    have : ([] : List MoveEntry) = l := Except.ok.inj h
    rw [← this] at hm
    exact absurd hm (List.not_mem_nil m)
  | succ t ih =>
    intro y0 hle l h m hm
    simp only [gam_rows] at h
    have hy0 : y0 < 8 := by omega
    have hwidth : ((board.get? y0).getD []).length = 8 := by
      have hlt : y0 < board.length := by rw [h8.1]; omega
      rw [List.get?_eq_get hlt]
      exact h8.2 _ (board.get_mem _ _)
    rw [hwidth] at h
    obtain ⟨here, hhere, h⟩ := except_bind_eq_ok h
    obtain ⟨rest, hrest, h⟩ := except_bind_eq_ok h
    have hl : here ++ rest = l := except_pure_inj h
    rw [← hl] at hm
    rw [List.mem_append] at hm
    rcases hm with hmh | hmr
    · exact gam_cells_moves_ok board h8 is_red fuel y0 hy0 8 0 (by omega)
        here hhere m hmh
    · exact ih (y0 + 1) (by omega) rest hrest m hmr

theorem get_available_moves_moves_ok
    (board : Board) (h8 : Board8 board) (is_red : Bool) (fuel : ℕ)
    (l : List MoveEntry) (h : get_available_moves fuel board is_red = .ok l) :
    ∀ m ∈ l, MoveOK board m := by
  unfold get_available_moves at h
  rw [h8.1] at h
  exact gam_rows_moves_ok board h8 is_red fuel 8 0 (by omega) l h


/-- Recognizer for the empty-origin exception of source line 86. -/
def isEmptyOriginErr : Except MoveErr (List MoveEntry) → Bool
  | .error (.emptyOrigin _) => true
  | _ => false

theorem isEmptyOriginErr_bind {e : Except MoveErr (List MoveEntry)}
    {f : List MoveEntry → Except MoveErr (List MoveEntry)}
    (he : isEmptyOriginErr e = false)
    (hf : ∀ a, isEmptyOriginErr (f a) = false) :
    isEmptyOriginErr (e >>= f) = false := by
  cases e with
  | error err => exact he
  | ok a => exact hf a

theorem consider_move_some_jp_no_guard (board : Board) :
    ∀ f (x y dx dy : ℤ) (jp : List String) (hp : Option (List String))
      (o : Option (ℤ × ℤ)),
      isEmptyOriginErr (consider_move board f x y dx dy (some jp) hp o) =
        false := by
  intro f
  induction f with
  | zero => intro x y dx dy jp hp o; rfl
  | succ f ih =>
    intro x y dx dy jp hp o
    simp only [consider_move]
    split
    · rfl
    · split
      · exact absurd (by assumption : cellIn _ x = some '.' ∧
          (some jp : Option (List String)) = none).2 (by simp)
      · split
        · rfl
        · split
          · rfl
          · split
            · rfl
            · split
              · split
                · rfl
                · split
                  · split
                    · rfl
                    · apply isEmptyOriginErr_bind (ih _ _ _ _ _ _ _)
                      intro l1
                      apply isEmptyOriginErr_bind (ih _ _ _ _ _ _ _)
                      intro l2
                      apply isEmptyOriginErr_bind (ih _ _ _ _ _ _ _)
                      intro l3
                      apply isEmptyOriginErr_bind (ih _ _ _ _ _ _ _)
                      intro l4
                      split <;> rfl
                  · rfl
              · rfl


theorem consider_move_top_no_guard (board : Board)
    (f : ℕ) (x y dx dy : ℤ) (c : Char)
    (hc : cellAt board x y = some c) (hcdot : c ≠ '.') :
    isEmptyOriginErr (consider_move board f x y dx dy none none none) =
      false := by
  match f with
  | 0 => rfl
  | f + 1 =>
    unfold cellAt at hc
    obtain ⟨row, hrow, hcell⟩ := Option.bind_eq_some.mp hc
    simp only [consider_move]
    rw [hrow]
    simp only [hcell]
    rw [if_neg (fun hco => hcdot (by injection hco.1))]
    split
    · rfl
    · split
      · rfl
      · split
        · rfl
        · split
          · split
            · rfl
            · split
              · split
                · rfl
                · apply isEmptyOriginErr_bind
                    (consider_move_some_jp_no_guard board _ _ _ _ _ _ _ _)
                  intro l1
                  apply isEmptyOriginErr_bind
                    (consider_move_some_jp_no_guard board _ _ _ _ _ _ _ _)
                  intro l2
                  apply isEmptyOriginErr_bind
                    (consider_move_some_jp_no_guard board _ _ _ _ _ _ _ _)
                  intro l3
                  apply isEmptyOriginErr_bind
                    (consider_move_some_jp_no_guard board _ _ _ _ _ _ _ _)
                  intro l4
                  split <;> rfl
              · rfl
          · rfl

theorem gam_cells_no_guard (board : Board) (is_red : Bool) (fuel y : ℕ) :
    ∀ togo x0,
      isEmptyOriginErr (gam_cells board is_red fuel y togo x0) = false := by
  intro togo
  induction togo with
  | zero => intro x0; rfl
  | succ t ih =>
    intro x0
    simp only [gam_cells]
    split
    · rename_i hcond
      obtain ⟨c, hc, hcdot⟩ := sideCond_cases is_red _ hcond
      apply isEmptyOriginErr_bind
        (consider_move_top_no_guard board _ _ _ _ _ c hc hcdot)
      intro l1
      apply isEmptyOriginErr_bind
        (consider_move_top_no_guard board _ _ _ _ _ c hc hcdot)
      intro l2
      apply isEmptyOriginErr_bind
        (consider_move_top_no_guard board _ _ _ _ _ c hc hcdot)
      intro l3
      apply isEmptyOriginErr_bind
        (consider_move_top_no_guard board _ _ _ _ _ c hc hcdot)
      intro l4
      apply isEmptyOriginErr_bind
      · rfl
      · intro here
        apply isEmptyOriginErr_bind (ih (x0 + 1))
        intro rest
        rfl
    · apply isEmptyOriginErr_bind
      · rfl
      · intro here
        apply isEmptyOriginErr_bind (ih (x0 + 1))
        intro rest
        rfl

theorem gam_rows_no_guard (board : Board) (is_red : Bool) (fuel : ℕ) :
    ∀ t y0, isEmptyOriginErr (gam_rows board is_red fuel t y0) = false := by
  intro t
  induction t with
  | zero => intro y0; rfl
  | succ t ih =>
    intro y0
    simp only [gam_rows]
    apply isEmptyOriginErr_bind (gam_cells_no_guard board is_red fuel y0 _ 0)
    intro here
    apply isEmptyOriginErr_bind (ih (y0 + 1))
    intro rest
    rfl


/-- An 8x8 board with a red man on c3, a black man on d2 and an empty b4:
red has one capture (over d2, landing e1) and one simple move. -/
def captureBoard : Board :=
  [['.', '.', '.', '.', '.', '.', '.', '.'],
   ['.', '.', '.', 'b', '.', '.', '.', '.'],
   ['.', '.', 'r', '.', '.', '.', '.', '.'],
   ['.', '.', '.', '.', '.', '.', '.', '.'],
   ['.', '.', '.', '.', '.', '.', '.', '.'],
   ['.', '.', '.', '.', '.', '.', '.', '.'],
   ['.', '.', '.', '.', '.', '.', '.', '.'],
   ['.', '.', '.', '.', '.', '.', '.', '.']]

/-- An 8x8 board with a red man on a8 and black men on b7 and d5: proper
checkers has the double capture a8 x b7 x d5 (landing c6, then e4), whose
first hop the engine finds but whose continuation it never reports. -/
def doubleJumpBoard : Board :=
  [['.', '.', '.', '.', '.', '.', '.', '.'],
   ['.', '.', '.', '.', '.', '.', '.', '.'],
   ['.', '.', '.', '.', '.', '.', '.', '.'],
   ['.', '.', '.', '.', '.', '.', '.', '.'],
   ['.', '.', '.', 'b', '.', '.', '.', '.'],
   ['.', '.', '.', '.', '.', '.', '.', '.'],
   ['.', 'b', '.', '.', '.', '.', '.', '.'],
   ['r', '.', '.', '.', '.', '.', '.', '.']]

/-- An 8x8 board with a single black king on d4, free in all four diagonal
directions. -/
def kingBoard : Board :=
  [['.', '.', '.', '.', '.', '.', '.', '.'],
   ['.', '.', '.', '.', '.', '.', '.', '.'],
   ['.', '.', '.', '.', '.', '.', '.', '.'],
   ['.', '.', '.', 'B', '.', '.', '.', '.'],
   ['.', '.', '.', '.', '.', '.', '.', '.'],
   ['.', '.', '.', '.', '.', '.', '.', '.'],
   ['.', '.', '.', '.', '.', '.', '.', '.'],
   ['.', '.', '.', '.', '.', '.', '.', '.']]

/-- Claim C1: on every 8x8 board, for either side to move, every capture
chain returned by get_available_moves has a duplicate-free captured-cell
list (the hit_path accumulated along the chain), for every chain of every
length.  On this code every returned chain in fact captures exactly one
cell — the recursive continuation calls can never add a move (see
consider_move_blocked) — so the list is a singleton and trivially free of
duplicates. -/
theorem get_available_moves_no_recapture
    (fuel : ℕ) (board : Board) (is_red : Bool) (moves : List MoveEntry)
    (h8 : Board8 board)
    (h : get_available_moves fuel board is_red = .ok moves) :
    ∀ m ∈ moves, ∀ o ds ht, m = .jump o ds ht → ht.Nodup := by
  intro m hm o ds ht heq
  obtain ⟨x, y, hx, hy, c, hc, ho, hnd, hb, hr⟩ :=
    get_available_moves_moves_ok board h8 is_red fuel moves h m hm
  exact hnd o ds ht heq

/-- Witness for C1 on captureBoard: the returned chain captures d2 once. -/
theorem get_available_moves_no_recapture_witness :
    (["d2"] : List String).Nodup :=
  get_available_moves_no_recapture 3 captureBoard true
    [MoveEntry.jump "c3" ["ne"] ["d2"], MoveEntry.move "c3" "nw"]
    ⟨rfl, by decide⟩ rfl (MoveEntry.jump "c3" ["ne"] ["d2"])
    (List.mem_cons_self _ _) "c3" ["ne"] ["d2"] rfl

/-- Claim C2 fails on the code (code bug): on doubleJumpBoard a further
capture of the not-yet-captured black man on d5 is available from the
landing cell c6 of the first capture, yet the move list contains only the
one-hop chain.  The recursion of source lines 128-131 passes the absolute
coordinates `nx ± 2`, `ny ± 2` where the four diagonal deltas are intended,
and the membership test of line 113 (written `indexOf == -1`, then return)
abandons every jump over a piece that is not already on the hit path —
the opposite of its stated purpose — so no continuation is ever explored
and no longer chain is ever reported. -/
theorem double_jump_not_extended :
    get_available_moves 5 doubleJumpBoard true =
      .ok [.jump "a8" ["ne"] ["b7"]] := rfl

theorem sideCond_false_of (is_red : Bool) (c : Char)
    (hRr : is_red = true → c ≠ 'R' ∧ c ≠ 'r')
    (hBb : is_red = false → c ≠ 'B' ∧ c ≠ 'b') :
    sideCond is_red (some c) = false := by
  cases is_red with
  | false =>
    obtain ⟨h1, h2⟩ := hBb rfl
    simp [sideCond, h1, h2]
  | true =>
    obtain ⟨h1, h2⟩ := hRr rfl
    simp [sideCond, h1, h2]

/-- Claim C8: for every 8x8 board containing zero pieces of the moving side
(no 'r'/'R' cell when playing red, no 'b'/'B' cell when playing black),
get_available_moves returns the empty move list. -/
theorem get_available_moves_empty_of_no_pieces
    (fuel : ℕ) (board : Board) (is_red : Bool) (h8 : Board8 board)
    (hnone : ∀ row ∈ board, ∀ c ∈ row,
      (is_red = true → c ≠ 'R' ∧ c ≠ 'r') ∧
      (is_red = false → c ≠ 'B' ∧ c ≠ 'b')) :
    get_available_moves fuel board is_red = .ok [] := by
  have hfalse : ∀ x y : ℤ, sideCond is_red (cellAt board x y) = false := by
    intro x y
    cases hcell : cellAt board x y with
    | none => cases is_red <;> rfl
    | some c =>
      have hmem : ∃ row ∈ board, c ∈ row := by
        unfold cellAt at hcell
        obtain ⟨row, hrow, hc⟩ := Option.bind_eq_some.mp hcell
        unfold rowAt at hrow
        by_cases hy : y < 0
        · rw [if_pos hy] at hrow
          exact Option.noConfusion hrow
        · rw [if_neg hy] at hrow
          refine ⟨row, List.get?_mem hrow, ?_⟩
          unfold cellIn at hc
          by_cases hx : x < 0
          · rw [if_pos hx] at hc
            exact Option.noConfusion hc
          · rw [if_neg hx] at hc
            exact List.get?_mem hc
      obtain ⟨row, hrowmem, hcmem⟩ := hmem
      obtain ⟨hRr, hBb⟩ := hnone row hrowmem c hcmem
      exact sideCond_false_of is_red c hRr hBb
  have hcells : ∀ togo x0 y0 : ℕ,
      gam_cells board is_red fuel y0 togo x0 = .ok [] := by
    intro togo
    induction togo with
    | zero => intro x0 y0; rfl
    | succ t ih =>
      intro x0 y0
      simp only [gam_cells]
      rw [hfalse x0 y0]
      rw [if_neg (by simp)]
      rw [ih (x0 + 1) y0]
      rfl
  have hrows : ∀ t y0 : ℕ, gam_rows board is_red fuel t y0 = .ok [] := by
    intro t
    induction t with
    | zero => intro y0; rfl
    | succ t ih =>
      intro y0
      simp only [gam_rows]
      rw [hcells _ 0 y0]
      rw [ih (y0 + 1)]
      rfl
  unfold get_available_moves
  exact hrows board.length 0

/-- Witness for C8: red to move on a board holding only a black man. -/
theorem get_available_moves_empty_of_no_pieces_witness :
    get_available_moves 2 singleBlackBoard true = .ok [] :=
  get_available_moves_empty_of_no_pieces 2 singleBlackBoard true
    ⟨rfl, by decide⟩ (by decide)

/-- Claim C9 (implicit direction rule as implemented): every move returned
by get_available_moves whose origin cell holds a lowercase man has a
forward first direction only — a 'b' piece starts southward (se/sw), an
'r' piece starts northward (ne/nw) — while an uppercase king is free to
start in any of the four diagonal directions (shown on a concrete board
where a black king receives all four simple moves). -/
theorem man_first_direction_rule :
    (∀ (fuel : ℕ) (board : Board) (is_red : Bool) (moves : List MoveEntry),
      Board8 board → get_available_moves fuel board is_red = .ok moves →
      ∀ m ∈ moves, ∀ x y : ℕ, x < 8 → y < 8 →
        m.originOf = xy_to_checkers_coord x y →
        (cellAt board x y = some 'b' →
          ∀ d, m.firstDir = some d → d = "se" ∨ d = "sw") ∧
        (cellAt board x y = some 'r' →
          ∀ d, m.firstDir = some d → d = "ne" ∨ d = "nw")) ∧
    get_available_moves 2 kingBoard false =
      .ok [.move "d4" "ne", .move "d4" "se", .move "d4" "nw",
        .move "d4" "sw"] := by
  constructor
  · intro fuel board is_red moves h8 h m hm x y hx hy horig
    obtain ⟨x0, y0, hx0, hy0, c, hc0, ho, _, hdb, hdr⟩ :=
      get_available_moves_moves_ok board h8 is_red fuel moves h m hm
    have horig2 : xy_to_checkers_coord x0 y0 = xy_to_checkers_coord x y :=
      ho.symm.trans horig
    obtain ⟨hex, hey⟩ := @xy_to_checkers_coord_inj x0 y0 x y (by omega)
      (by omega) (by omega) (by omega) (by omega) (by omega) (by omega)
      (by omega) horig2
    have ex : x0 = x := by omega
    have ey : y0 = y := by omega
    subst ex
    subst ey
    constructor
    · intro hcb d hd
      have hcc : c = 'b' := by
        rw [hc0] at hcb
        exact Option.some.inj hcb
      exact hdb hcc d hd
    · intro hcr d hd
      have hcc : c = 'r' := by
        rw [hc0] at hcr
        exact Option.some.inj hcr
      exact hdr hcc d hd
  · rfl

/-- Witness for the universal part of C9, at the black man of
singleBlackBoard and its returned move d4 se: its first direction is
southward. -/
theorem man_first_direction_rule_witness :
    "se" = "se" ∨ "se" = "sw" :=
  (man_first_direction_rule.1 2 singleBlackBoard false
    [MoveEntry.move "d4" "se", MoveEntry.move "d4" "sw"]
    ⟨rfl, by decide⟩ rfl (MoveEntry.move "d4" "se")
    (List.mem_cons_self _ _) 3 3 (by norm_num) (by norm_num) rfl).1
    rfl "se" rfl

/-- Claim C10: the empty-origin guard of consider_move (source lines 85-86)
is unreachable from get_available_moves, for every board whose rows are
strings and either side: top-level calls are made only on cells holding a
piece of the moving side, and every recursive call carries a non-empty
jump_path, so the thrown empty-origin exception never escapes. -/
theorem get_available_moves_never_empty_origin
    (fuel : ℕ) (board : Board) (is_red : Bool) :
    isEmptyOriginErr (get_available_moves fuel board is_red) = false := by
  unfold get_available_moves
  exact gam_rows_no_guard board is_red fuel board.length 0


/-! ## Claim coordinator (bid) -/

/-- A parsed get_checkers_board response: status line, the two player
identities, and the board rows (raw row strings). -/
structure Game where
  status : String
  player1 : String
  player2 : String
  board : List String
  deriving DecidableEq, Repr

/-- Result of one of the two waiting loops inside bid: a playable seat, a
recovery retry at the given index, or still waiting when the modelled poll
stream runs out. -/
inductive BidOutcome where
  | playable (idx : ℕ) (board : List String) (is_first : Bool)
  | retry (idx : ℕ)
  | pending
  deriving DecidableEq, Repr

/-- The creator-path wait loop of bid (source lines 238-252): after creating
a game, poll until the status is active; if a poll shows a first player
other than this agent, return to bid with the SAME index (line 247).  The
argument `game` is the most recent read and `polls` the stream of future
reads; on success the loop returns the board of the pre-create read
`res_board`, as the source does. -/
def bid_creator_wait (my_player : String) (idx : ℕ)
    (res_board : List String) : Game → List Game → BidOutcome
  | game, polls =>
    if game.status = "active" then .playable idx res_board true
    else
      match polls with
      | [] => .pending
      | g :: rest =>
        if g.player1 ≠ my_player then .retry idx
        else bid_creator_wait my_player idx res_board g rest

/-- The joiner-path wait loop of bid (source lines 273-289): after joining,
poll until the board changes from its pre-join snapshot; if a poll shows a
second player other than this agent, increment the index and return to bid
with it (lines 284-285). -/
def bid_joiner_wait (my_player : String) (idx : ℕ)
    (orig_board : List String) : Game → List Game → BidOutcome
  | game, polls =>
    if game.board = orig_board then
      match polls with
      | [] => .pending
      | g :: rest =>
        if g.player2 ≠ my_player then .retry (idx + 1)
        else bid_joiner_wait my_player idx orig_board g rest
    else .playable idx game.board false

/-- Claim C5: the two race recoveries of bid differ by exactly one index —
whenever the creator-path poll observes a first-player identity different
from this agent, bid retries the same index; whenever the joiner-path poll
observes a second-player identity different from this agent, bid retries
at that index plus one. -/
theorem bid_race_retry_indices :
    (∀ (my : String) (idx : ℕ) (rb : List String) (g : Game)
        (polls : List Game) (j : ℕ),
      bid_creator_wait my idx rb g polls = .retry j → j = idx) ∧
    (∀ (my : String) (idx : ℕ) (ob : List String) (g : Game)
        (polls : List Game) (j : ℕ),
      bid_joiner_wait my idx ob g polls = .retry j → j = idx + 1) := by
  constructor
  · intro my idx rb g polls
    induction polls generalizing g with
    | nil =>
      intro j h
      simp only [bid_creator_wait] at h
      split at h
      · exact BidOutcome.noConfusion h
      · exact BidOutcome.noConfusion h
    | cons g2 rest ih =>
      intro j h
      simp only [bid_creator_wait] at h
      split at h
      · exact BidOutcome.noConfusion h
      · split at h
        · exact (BidOutcome.retry.inj h).symm
        · exact ih g2 j h
  · intro my idx ob g polls
    induction polls generalizing g with
    | nil =>
      intro j h
      simp only [bid_joiner_wait] at h
      split at h
      · exact BidOutcome.noConfusion h
      · exact BidOutcome.noConfusion h
    | cons g2 rest ih =>
      intro j h
      simp only [bid_joiner_wait] at h
      split at h
      · split at h
        · exact (BidOutcome.retry.inj h).symm
        · exact ih g2 j h
      · exact BidOutcome.noConfusion h

/-- Witness for C5: a creator race at index 5 retries 5, a joiner race at
index 6 retries 7. -/
theorem bid_race_retry_indices_witness : 5 = 5 ∧ 7 = 6 + 1 :=
  ⟨bid_race_retry_indices.1 "me" 5 [] ⟨"not started", "me", "", []⟩
      [⟨"waiting for join", "other", "", []⟩] 5 rfl,
    bid_race_retry_indices.2 "me" 6 ["x8"] ⟨"active", "a", "me", ["x8"]⟩
      [⟨"active", "a", "thief", ["x8"]⟩] 7 rfl⟩

/-! ## Registration (connect_and_register) -/

/-- Outcome of one iteration of the registration body (source lines
308-333): the request throws (caught, sleep, loop again), registration
returns an identity, or registration reports no result and the
get_my_player fallback returns the given optional identity. -/
inductive RegAttempt where
  | throws
  | registered (pid : String)
  | fallback (pid : Option String)
  deriving Repr

/-- Embedding of the connect_and_register retry loop (source lines
304-335).  `attempt` is the counter of line 306; faithfully to the source,
the catch path does NOT increment it.  `iter` indexes the environment of
attempt outcomes, and the fuel bounds the observed iterations: `none` means
the loop was still running when the fuel ran out, `some r` that the
function returned with JS value r (undefined modelled as `some none`, the
fall-off-the-end return when the loop condition fails). -/
def connect_and_register (env : ℕ → RegAttempt) :
    ℕ → ℕ → ℕ → Option (Option String)
  | 0, _, _ => none
  | fuel + 1, attempt, iter =>
    if attempt < 10 then
      match env iter with
      | .throws => connect_and_register env fuel attempt (iter + 1)
      | .registered pid => some (some pid)
      | .fallback (some pid) => some (some pid)
      | .fallback none => some none
    else some none

/-- Claim C6 fails on the code (code bug): when every registration request
throws, connect_and_register never returns, for any number of iterations —
the attempt counter of line 306 is compared against the bound 10 at line
307 but never incremented anywhere in the loop, so the bound is never
reached and the session is never aborted. -/
theorem connect_and_register_never_returns :
    ∀ fuel iter,
      connect_and_register (fun _ => .throws) fuel 0 iter = none := by
  intro fuel
  induction fuel with
  | zero => intro iter; rfl
  | succ f ih =>
    intro iter
    simp only [connect_and_register]
    rw [if_pos (by norm_num)]
    exact ih (iter + 1)

/-! ## Session loop (main_loop) -/

/-- Outcome of one iteration of the play loop (source lines 358-399):
submitting the move failed (break at line 379), the wait for the opponent
timed out (continue at line 393), or the opponent moved and the given new
board was read. -/
inductive PlayOutcome where
  | moveFailed
  | timeout
  | opponentMoved (b : List String)
  deriving Repr

/-- The state carried through one match of main_loop: the claimed position
and the play loop variables prev_board and available_moves (source lines
353-356).  The play loop reads `pos` (for idx_to_xy and the board queries)
but never assigns it. -/
structure PlayState where
  pos : ℕ
  prev_board : List String
  available_moves : List MoveEntry
  deriving Repr

/-- Embedding of the do/while play loop of main_loop (source lines
358-399), with the move-engine call at line 397 abstracted as `movesF` and
the per-iteration interaction outcome as `env`.  On timeout the source
continues to the loop condition with the move list unchanged; on an
opponent move it refreshes prev_board and available_moves and re-checks
the condition. -/
def play_loop (movesF : List String → List MoveEntry)
    (env : ℕ → PlayOutcome) : ℕ → PlayState → PlayState
  | 0, s => s
  | n + 1, s =>
    match env n with
    | .moveFailed => s
    | .timeout =>
      if s.available_moves.isEmpty then s
      else play_loop movesF env n s
    | .opponentMoved b =>
      let moves := movesF b
      let s2 : PlayState := ⟨s.pos, b, moves⟩
      if moves.isEmpty then s2 else play_loop movesF env n s2

theorem play_loop_pos (movesF : List String → List MoveEntry)
    (env : ℕ → PlayOutcome) :
    ∀ n s, (play_loop movesF env n s).pos = s.pos := by
  intro n
  induction n with
  | zero => intro s; rfl
  | succ n ih =>
    intro s
    simp only [play_loop]
    split
    · rfl
    · split
      · rfl
      · exact ih s
    · split
      · rfl
      · exact ih _

/-- One round of main_loop (source lines 346-402): discover a position with
autodial, claim a seat with bid (pos = r[0], board = r[1], is_red = r[2]),
run the play loop, and return the position with which the loop re-enters
the next autodial call. -/
def session_round (adF : ℕ → ℕ) (bidF : ℕ → ℕ × List String × Bool)
    (movesF : Bool → List String → List MoveEntry)
    (env : ℕ → PlayOutcome) (playFuel : ℕ) (pos : ℕ) : ℕ :=
  let pos1 := adF pos
  let r := bidF pos1
  let pos2 := r.1
  let prev_board := r.2.1
  let is_red := r.2.2
  let s := play_loop (movesF is_red) env playFuel
    ⟨pos2, prev_board, movesF is_red prev_board⟩
  s.pos

/-- Claim C7 fails on the code: with identity autodial and bid maps from
start position 0, the just-played index is 0 and the next autodial call
receives 0, not 0 + 1 — main_loop stores pos = r[0] (line 353), the play
loop never assigns pos, and the loop re-runs autodial(pos) unchanged. -/
theorem session_round_not_plus_one :
    session_round id (fun i => (i, [], true)) (fun _ _ => [])
        (fun _ => .moveFailed) 1 0 = 0 ∧
      session_round id (fun i => (i, [], true)) (fun _ _ => [])
        (fun _ => .moveFailed) 1 0 ≠ 0 + 1 :=
  ⟨rfl, by decide⟩

/-- Amended claim C7: after a match at index p ends, the session loop
begins the next slot discovery from exactly p — the argument passed to the
next autodial call equals the just-played index (the index returned by
bid), with no increment. -/
theorem session_round_next_origin (adF : ℕ → ℕ)
    (bidF : ℕ → ℕ × List String × Bool)
    (movesF : Bool → List String → List MoveEntry)
    (env : ℕ → PlayOutcome) (playFuel pos : ℕ) :
    session_round adF bidF movesF env playFuel pos = (bidF (adF pos)).1 := by
  unfold session_round
  rw [play_loop_pos]


/-! ## Slot discovery (autodial) -/

/-- The loop state of autodial (source lines 178-181): current index, step
size, direction flag and extension-phase flag.  Index and step are exact
rationals: every value this loop produces is a small dyadic rational, on
which JS double arithmetic is exact. -/
structure ADState where
  idx : ℚ
  jump : ℚ
  up : Bool
  extend : Bool
  deriving DecidableEq, Repr

/-- One iteration of the async.doWhilst body of autodial (source lines
184-206), against a ledger `L` mapping an index to its active flag:
while extending, an active slot doubles the step and a free slot bumps the
index by one and leaves the extension phase; outside the extension phase
the direction is set toward the active side and the step is floor-halved
(Math.floor embedded as jsFloor); finally the index moves by the (possibly
just updated) step. -/
def jsFloor (q : ℚ) : ℤ :=
  Int.fdiv q.num q.den

/-- jsFloor is the mathematical floor of a rational (the denominator is
positive), matching Math.floor on the exactly-represented values this loop
produces. -/
theorem jsFloor_natCast (n : ℕ) : jsFloor ((n : ℕ) : ℚ) = (n : ℤ) := by
  unfold jsFloor
  rw [Rat.num_natCast, Rat.den_natCast]
  cases n with
  | zero => rfl
  | succ m => simp [Int.fdiv]

def autodial_step (L : ℚ → Bool) (s : ADState) : ADState :=
  let active := L s.idx
  let s1 : ADState :=
    if s.extend then
      if active then { s with jump := s.jump * 2 }
      else { s with idx := s.idx + 1, extend := false }
    else s
  let s2 : ADState :=
    if s1.extend then s1
    else { s1 with up := active, jump := ((jsFloor (s1.jump / 2) : ℤ) : ℚ) }
  if s2.up then { s2 with idx := s2.idx + s2.jump }
  else { s2 with idx := s2.idx - s2.jump }

/-- The doWhilst driver of autodial (source lines 183-218): run the body,
continue while `jump >= 1/2`, and resolve with the current index on exit.
The fuel bounds the number of body iterations — one ledger query each —
and `none` means the loop had not converged within the fuel. -/
def autodial_run (L : ℚ → Bool) : ℕ → ADState → Option ℚ
  | 0, _ => none
  | n + 1, s =>
    let s2 := autodial_step L s
    if s2.jump ≥ 1 / 2 then autodial_run L n s2 else some s2.idx

/-- The initial autodial state (source lines 178-181). -/
def autodial_start (start_at : ℚ) : ADState := ⟨start_at, 1 / 2, true, true⟩

/-- autodial(start_at) against ledger `L`, observed for `fuel` queries. -/
def autodial (L : ℚ → Bool) (fuel : ℕ) (start_at : ℚ) : Option ℚ :=
  autodial_run L fuel (autodial_start start_at)

/-- The synthetic ledger of the autodial convergence property: slots
`[0, k)` are active, everything else is free. -/
def synthLedger (k : ℕ) : ℚ → Bool := fun q => decide (q < (k : ℚ))


theorem autodial_run_succ (L : ℚ → Bool) (n : ℕ) (s : ADState) :
    autodial_run L (n + 1) s =
      if (autodial_step L s).jump ≥ 1 / 2 then
        autodial_run L n (autodial_step L s)
      else some (autodial_step L s).idx := rfl

theorem autodial_run_mono (L : ℚ → Bool) :
    ∀ (n : ℕ) (s : ADState) (r : ℚ), autodial_run L n s = some r →
      ∀ F, n ≤ F → autodial_run L F s = some r := by
  intro n
  induction n with
  | zero => intro s r h; exact Option.noConfusion h
  | succ n ih =>
    intro s r h F hF
    match F, hF with
    | F + 1, hF =>
      rw [autodial_run_succ] at h ⊢
      split at h
      · rw [if_pos (by assumption)]
        exact ih _ r h F (by omega)
      · rw [if_neg (by assumption)]
        exact h

/-- The extension-phase state after `t` active probes: index `2^t - 1`,
step `2^t / 2`. -/
def adE (t : ℕ) : ADState :=
  ⟨((2 ^ t : ℕ) : ℚ) - 1, ((2 ^ t : ℕ) : ℚ) / 2, true, true⟩

theorem autodial_start_eq : autodial_start 0 = adE 0 := by
  simp only [autodial_start, adE]
  norm_num

theorem autodial_step_extend (L : ℚ → Bool) (t : ℕ)
    (hact : L (((2 ^ t : ℕ) : ℚ) - 1) = true) :
    autodial_step L (adE t) = adE (t + 1) := by
  simp only [autodial_step, adE, hact, if_true]
  simp only [ADState.mk.injEq]
  refine ⟨?_, ?_, trivial, trivial⟩
  · push_cast [pow_succ]
    ring
  · push_cast [pow_succ]
    ring

theorem autodial_step_flip (L : ℚ → Bool) (u : ℕ)
    (hnact : L (((2 ^ (u + 2) : ℕ) : ℚ) - 1) = false) :
    autodial_step L (adE (u + 2)) =
      ⟨((2 ^ (u + 2) : ℕ) : ℚ) - ((2 ^ u : ℕ) : ℚ), ((2 ^ u : ℕ) : ℚ),
        false, false⟩ := by
  have hfl : (((2 ^ (u + 2) : ℕ) : ℚ) / 2) / 2 = ((2 ^ u : ℕ) : ℚ) := by
    push_cast [pow_succ]
    ring
  simp only [autodial_step, adE, hnact]
  simp only [Bool.false_eq_true, if_false, if_true]
  simp only [hfl, jsFloor_natCast]
  simp only [ADState.mk.injEq]
  refine ⟨?_, ?_, trivial, trivial⟩
  · push_cast
    ring
  · push_cast
    ring

theorem autodial_step_narrow (L : ℚ → Bool) (m : ℚ) (j : ℕ) (up : Bool) :
    autodial_step L ⟨m, ((2 ^ (j + 1) : ℕ) : ℚ), up, false⟩ =
      ⟨if L m then m + ((2 ^ j : ℕ) : ℚ) else m - ((2 ^ j : ℕ) : ℚ),
        ((2 ^ j : ℕ) : ℚ), L m, false⟩ := by
  have hfl : ((2 ^ (j + 1) : ℕ) : ℚ) / 2 = ((2 ^ j : ℕ) : ℚ) := by
    push_cast [pow_succ]
    ring
  simp only [autodial_step]
  simp only [Bool.false_eq_true, if_false]
  simp only [hfl, jsFloor_natCast]
  cases hL : L m with
  | true => simp
  | false => simp

unseal Rat.mul Rat.add Rat.sub Rat.inv in
theorem autodial_step_last (L : ℚ → Bool) (m : ℚ) (up : Bool) :
    autodial_step L ⟨m, ((2 ^ 0 : ℕ) : ℚ), up, false⟩ =
      ⟨m, 0, L m, false⟩ := by
  have hfl : jsFloor (((2 ^ 0 : ℕ) : ℚ) / 2) = 0 := by decide
  simp only [autodial_step]
  simp only [Bool.false_eq_true, if_false]
  simp only [hfl]
  cases hL : L m with
  | true => simp
  | false => simp

theorem synthLedger_int (k : ℕ) (m : ℤ) :
    synthLedger k ((m : ℤ) : ℚ) = decide (m < (k : ℤ)) := by
  unfold synthLedger
  apply decide_eq_decide.mpr
  constructor
  · intro h
    exact_mod_cast h
  · intro h
    exact_mod_cast h

theorem autodial_narrow (k : ℕ) :
    ∀ (j : ℕ) (m : ℤ) (up : Bool), (k : ℤ) - 2 ^ j ≤ m →
      m ≤ (k : ℤ) + 2 ^ j →
      ∃ r : ℚ, autodial_run (synthLedger k) (j + 1)
          ⟨((m : ℤ) : ℚ), ((2 ^ j : ℕ) : ℚ), up, false⟩ = some r ∧
        (k : ℚ) - 1 ≤ r := by
  intro j
  induction j with
  | zero =>
    intro m up h1 h2
    refine ⟨((m : ℤ) : ℚ), ?_, ?_⟩
    · rw [autodial_run_succ, autodial_step_last]
      rw [if_neg (by norm_num)]
    · have : (k : ℤ) - 1 ≤ m := by
        have hp : (2 : ℤ) ^ 0 = 1 := by norm_num
        omega
      exact_mod_cast this
  | succ j ih =>
    intro m up h1 h2
    have hp : (2 : ℤ) ^ (j + 1) = 2 * 2 ^ j := by ring
    rw [autodial_run_succ, autodial_step_narrow]
    have hjump : (1 : ℚ) ≤ ((2 ^ j : ℕ) : ℚ) := by
      exact_mod_cast Nat.one_le_two_pow
    rw [if_pos (by show ((2 ^ j : ℕ) : ℚ) ≥ 1 / 2; linarith)]
    rw [synthLedger_int]
    by_cases hm : m < (k : ℤ)
    · rw [decide_eq_true hm]
      simp only [if_true]
      have hcast : ((m : ℤ) : ℚ) + ((2 ^ j : ℕ) : ℚ) =
          (((m + 2 ^ j : ℤ)) : ℚ) := by
        push_cast
        ring
      rw [hcast]
      exact ih (m + 2 ^ j) true (by omega) (by omega)
    · rw [decide_eq_false hm]
      simp only [Bool.false_eq_true, if_false]
      have hcast : ((m : ℤ) : ℚ) - ((2 ^ j : ℕ) : ℚ) =
          (((m - 2 ^ j : ℤ)) : ℚ) := by
        push_cast
        ring
      rw [hcast]
      exact ih (m - 2 ^ j) false (by omega) (by omega)


theorem synthLedger_adE_true (k t : ℕ) (h : 2 ^ t ≤ k) :
    synthLedger k (((2 ^ t : ℕ) : ℚ) - 1) = true := by
  unfold synthLedger
  apply decide_eq_true
  have h2 : ((2 ^ t : ℕ) : ℚ) ≤ (k : ℚ) := by exact_mod_cast h
  linarith

theorem synthLedger_adE_false (k t : ℕ) (h : k + 1 ≤ 2 ^ t) :
    synthLedger k (((2 ^ t : ℕ) : ℚ) - 1) = false := by
  unfold synthLedger
  apply decide_eq_false
  intro hcon
  have h1 : ((2 ^ t : ℕ) : ℚ) < (k : ℚ) + 1 := by linarith
  have h2 : (2 ^ t : ℕ) < k + 1 := by exact_mod_cast h1
  omega

theorem autodial_ext_run (k : ℕ) :
    ∀ t F : ℕ, (∀ i < t, 2 ^ i ≤ k) →
      autodial_run (synthLedger k) (t + F) (adE 0) =
        autodial_run (synthLedger k) F (adE t) := by
  intro t
  induction t with
  | zero => intro F _; rw [Nat.zero_add]
  | succ t ih =>
    intro F hact
    have h1 : t + 1 + F = t + (F + 1) := by omega
    rw [h1, ih (F + 1) (fun i hi => hact i (by omega))]
    rw [autodial_run_succ]
    rw [autodial_step_extend _ t (synthLedger_adE_true k t (hact t (by omega)))]
    have hjump : (1 : ℚ) ≤ ((2 ^ (t + 1) : ℕ) : ℚ) := by
      exact_mod_cast Nat.one_le_two_pow
    rw [if_pos (by show ((2 ^ (t + 1) : ℕ) : ℚ) / 2 ≥ 1 / 2; linarith)]

unseal Rat.mul Rat.add Rat.sub Rat.inv in
/-- Claim C4 fails on the code: on the synthetic ledger with slots [0, 6)
active, autodial(0) converges within the logarithmic query budget but
returns index 5 — the last ACTIVE slot, one below the boundary — not an
index >= 6.  (The same happens at the spec's own test point k = 1000,
where the returned index is 999.) -/
theorem autodial_returns_below_boundary :
    autodial (synthLedger 6) (2 * Nat.log2 (6 + 1) + 4) 0 = some 5 ∧
      ¬((5 : ℚ) ≥ (6 : ℚ)) := by
  have hfuel : 2 * Nat.log2 (6 + 1) + 4 = 8 := by norm_num [Nat.log2]
  rw [hfuel]
  constructor
  · decide
  · decide


unseal Rat.mul Rat.add Rat.sub Rat.inv in
/-- Amended claim C4: for every k, on the synthetic ledger with slots
[0, k) active and the rest free, autodial(0) terminates within
2 * log2(k+1) + 4 ledger queries (the step size falls below one half) and
returns an index >= k - 1: the search converges to the boundary but may
stop on the last active slot, one below it, as the counterexample k = 6
(and the spec's own test point k = 1000) shows. -/
theorem autodial_converges (k : ℕ) :
    ∃ r : ℚ, autodial (synthLedger k) (2 * Nat.log2 (k + 1) + 4) 0 = some r ∧
      (k : ℚ) - 1 ≤ r := by
  by_cases hk0 : k = 0
  · subst hk0
    refine ⟨1, ?_, by norm_num⟩
    have hfuel : 2 * Nat.log2 (0 + 1) + 4 = 4 := by norm_num [Nat.log2]
    rw [hfuel]
    decide
  by_cases hk1 : k = 1
  · subst hk1
    refine ⟨2, ?_, by norm_num⟩
    have hfuel : 2 * Nat.log2 (1 + 1) + 4 = 6 := by norm_num [Nat.log2]
    rw [hfuel]
    decide
  have hTge2 : 2 ≤ Nat.clog 2 (k + 1) := by
    by_contra hcon
    push_neg at hcon
    have h1 : k + 1 ≤ 2 ^ Nat.clog 2 (k + 1) :=
      Nat.le_pow_clog (by norm_num) _
    have h2 : (2 : ℕ) ^ Nat.clog 2 (k + 1) ≤ 2 ^ 1 :=
      Nat.pow_le_pow_right (by norm_num) (by omega)
    norm_num at h2
    omega
  obtain ⟨u, hu⟩ : ∃ u, Nat.clog 2 (k + 1) = u + 2 :=
    ⟨Nat.clog 2 (k + 1) - 2, by omega⟩
  have hk1' : k + 1 ≤ 2 ^ (u + 2) := by
    have h := Nat.le_pow_clog (show (1 : ℕ) < 2 by norm_num) (k + 1)
    rw [hu] at h
    exact h
  have hk2 : 2 ^ (u + 1) ≤ k := by
    have h := Nat.pow_pred_clog_lt_self (show (1 : ℕ) < 2 by norm_num)
      (show 1 < k + 1 by omega)
    rw [hu] at h
    have h12 : (u + 2).pred = u + 1 := rfl
    rw [h12] at h
    omega
  have hTle : u + 2 ≤ Nat.log2 (k + 1) + 1 := by
    have h1 : k + 1 < 2 ^ (Nat.log 2 (k + 1) + 1) :=
      Nat.lt_pow_succ_log_self (by norm_num) (k + 1)
    have h2 : Nat.clog 2 (k + 1) ≤ Nat.log 2 (k + 1) + 1 :=
      (Nat.le_pow_iff_clog_le (by norm_num)).mp (le_of_lt h1)
    rw [hu] at h2
    rw [Nat.log2_eq_log_two]
    exact h2
  have hactives : ∀ i < u + 2, 2 ^ i ≤ k := by
    intro i hi
    have h1 : (2 : ℕ) ^ i ≤ 2 ^ (u + 1) :=
      Nat.pow_le_pow_right (by norm_num) (by omega)
    omega
  have hp2 : (2 : ℤ) ^ (u + 2) = 4 * 2 ^ u := by ring
  have hp1 : (2 : ℤ) ^ (u + 1) = 2 * 2 ^ u := by ring
  have hk1z : (k : ℤ) + 1 ≤ 2 ^ (u + 2) := by exact_mod_cast hk1'
  have hk2z : (2 : ℤ) ^ (u + 1) ≤ (k : ℤ) := by exact_mod_cast hk2
  obtain ⟨r, hr, hge⟩ := autodial_narrow k u (2 ^ (u + 2) - 2 ^ u) false
    (by omega) (by omega)
  refine ⟨r, ?_, hge⟩
  have hfuel : 2 * Nat.log2 (k + 1) + 4 =
      (u + 2) + ((2 * Nat.log2 (k + 1) + 4 - (u + 3)) + 1) := by omega
  unfold autodial
  rw [autodial_start_eq, hfuel,
    autodial_ext_run k (u + 2) _ hactives]
  rw [autodial_run_succ]
  rw [autodial_step_flip _ u (synthLedger_adE_false k (u + 2) hk1')]
  have hjump : (1 : ℚ) ≤ ((2 ^ u : ℕ) : ℚ) := by
    exact_mod_cast Nat.one_le_two_pow
  rw [if_pos (by show ((2 ^ u : ℕ) : ℚ) ≥ 1 / 2; linarith)]
  have hcast : ((2 ^ (u + 2) : ℕ) : ℚ) - ((2 ^ u : ℕ) : ℚ) =
      (((2 ^ (u + 2) - 2 ^ u : ℤ)) : ℚ) := by
    push_cast
    ring
  rw [hcast]
  exact autodial_run_mono _ (u + 1) _ r hr _ (by omega)

end Blockscape
